import Mathlib

/-!
Verification of the inverted-index core (gap + VByte compression, sequential
and parallel index construction, index maintenance) against its specification.

Dictionaries (`dict` in the source) are modelled as association lists
`List (String × β)` with first-match lookup (the operations below keep keys
unique, as a Python `dict` does); Python `int` is modelled as `Int` (byte
values, which are always in `[0, 255]`, as `Nat`); raising an exception is
modelled with `Except String`, carrying the source's error message.
-/

namespace IndexLab

/-! ### Generic dictionary helpers -/

/-- First-match lookup in an association list (Python `dict` access). -/
def getVal (t : String) : List (String × β) → Option β
  | [] => none
  | (k, v) :: rest => if k = t then some v else getVal t rest

/-- Value equality of two dictionaries, as Python `==` on `dict`s:
the same keys and the same value at every key. -/
def DictEq (d₁ d₂ : List (String × β)) : Prop :=
  ∀ t, getVal t d₁ = getVal t d₂

theorem getVal_mem {t : String} {v : β} {d : List (String × β)}
    (h : getVal t d = some v) : (t, v) ∈ d := by
  induction d with
  | nil => simp [getVal] at h
  | cons hd tl ih =>
    obtain ⟨k, w⟩ := hd
    by_cases hk : k = t
    · subst hk
      simp [getVal] at h
      simp [h]
    · simp [getVal, hk] at h
      exact List.mem_cons_of_mem _ (ih h)

theorem getVal_append_sing_ne {t t₀ : String} (v₀ : β) (d : List (String × β))
    (h : t₀ ≠ t) : getVal t (d ++ [(t₀, v₀)]) = getVal t d := by
  induction d with
  | nil => simp [getVal, h]
  | cons hd tl ih =>
    obtain ⟨k, w⟩ := hd
    by_cases hk : k = t <;> simp [getVal, hk, ih]

theorem getVal_append_sing_self {t : String} (v : β) (d : List (String × β))
    (h : getVal t d = none) : getVal t (d ++ [(t, v)]) = some v := by
  induction d with
  | nil => simp [getVal]
  | cons hd tl ih =>
    obtain ⟨k, w⟩ := hd
    by_cases hk : k = t
    · simp [getVal, hk] at h
    · simp [getVal, hk] at h ⊢
      exact ih h

/-! ### PostingsCodec — src/compression.py -/

/-- Helper for `gap_encode`: successive differences against the previous
posting (the loop `for i in range(1, len(postings))`). -/
def gapsFrom (prev : Int) : List Int → List Int
  | [] => []
  | x :: xs => (x - prev) :: gapsFrom x xs

/-- `gap_encode(postings)`: first element kept, then successive differences. -/
def gap_encode : List Int → List Int
  | [] => []
  | p :: rest => p :: gapsFrom p rest

/-- Helper for `gap_decode`: running partial sums after the first element
(the loop `for g in gaps[1:]: postings.append(postings[-1] + g)`). -/
def decFrom (last : Int) : List Int → List Int
  | [] => []
  | g :: gs => (last + g) :: decFrom (last + g) gs

/-- `gap_decode(gaps)`: first element kept, then running sums. -/
def gap_decode : List Int → List Int
  | [] => []
  | g :: gs => g :: decFrom g gs

/-- The byte list produced for a non-negative value: the loop
`while n >= 128: bytes_.append(n & 0x7F); n >>= 7` followed by
`bytes_.append(n | 0x80)`.  On `Nat`, `n & 0x7F = n % 128`,
`n >> 7 = n / 128`, and for `n < 128`, `n | 0x80 = n + 128`. -/
def vbyteBytes (n : Nat) : List Nat :=
  if n < 128 then [n + 128] else (n % 128) :: vbyteBytes (n / 128)
termination_by n
decreasing_by
  exact Nat.div_lt_self (by omega) (by omega)

/-- `vbyte_encode_number(n)`: raises `ValueError` on negative input,
otherwise emits the little-endian 7-bit groups of `n`. -/
def vbyte_encode_number (n : Int) : Except String (List Nat) :=
  if n < 0 then Except.error "VByte only supports non-negative integers"
  else Except.ok (vbyteBytes n.toNat)

/-- The decoding loop of `vbyte_decode_stream`, with the loop state
(`current`, `shift`, `numbers`) made explicit.  Each byte contributes
`(b & 0x7F) << shift` to the accumulator; a byte with the high bit set
terminates the current number; a non-zero `shift` left over at the end of
the stream raises `ValueError("Incomplete VByte stream")`. -/
def decodeGo : List Nat → Nat → Nat → List Nat → Except String (List Nat)
  | [], _, shift, numbers =>
    if shift ≠ 0 then Except.error "Incomplete VByte stream" else Except.ok numbers
  | b :: rest, current, shift, numbers =>
    if b &&& 128 ≠ 0 then
      decodeGo rest 0 0 (numbers ++ [current ||| ((b &&& 127) <<< shift)])
    else
      decodeGo rest (current ||| ((b &&& 127) <<< shift)) (shift + 7) numbers

/-- `vbyte_decode_stream(byte_list)`: run the loop from the initial state. -/
def vbyte_decode_stream (byte_list : List Nat) : Except String (List Nat) :=
  decodeGo byte_list 0 0 []

/-- `vbyte_encode_postings(gaps)`: concatenation of the encodings of the
gaps, in order; the first negative gap raises. -/
def vbyte_encode_postings : List Int → Except String (List Nat)
  | [] => Except.ok []
  | g :: gs =>
    match vbyte_encode_number g with
    | Except.error e => Except.error e
    | Except.ok b =>
      match vbyte_encode_postings gs with
      | Except.error e => Except.error e
      | Except.ok rest => Except.ok (b ++ rest)

/-- `vbyte_decode_postings` is an alias of `vbyte_decode_stream`. -/
def vbyte_decode_postings (byte_list : List Nat) : Except String (List Nat) :=
  vbyte_decode_stream byte_list

/-- `compress_index(index)`: term by term, GAP then VByte. -/
def compress_index : List (String × List Int) → Except String (List (String × List Nat))
  | [] => Except.ok []
  | (term, postings) :: rest =>
    match vbyte_encode_postings (gap_encode postings) with
    | Except.error e => Except.error e
    | Except.ok bs =>
      match compress_index rest with
      | Except.error e => Except.error e
      | Except.ok r => Except.ok ((term, bs) :: r)

/-- `decompress_index(compressed_index)`: term by term, VByte then GAP
(decoded byte values are non-negative, hence the `Int.ofNat` view). -/
def decompress_index : List (String × List Nat) → Except String (List (String × List Int))
  | [] => Except.ok []
  | (term, byte_list) :: rest =>
    match vbyte_decode_postings byte_list with
    | Except.error e => Except.error e
    | Except.ok ns =>
      match decompress_index rest with
      | Except.error e => Except.error e
      | Except.ok r => Except.ok ((term, gap_decode (ns.map Int.ofNat)) :: r)

/-- Python's `int.bit_length()` for non-negative values. -/
def bit_length (n : Nat) : Nat :=
  if n = 0 then 0 else bit_length (n / 2) + 1
termination_by n
decreasing_by
  exact Nat.div_lt_self (by omega) (by omega)

/-! ### Unfolding lemmas for the recursive codec definitions -/

theorem vbyteBytes_lt {n : Nat} (h : n < 128) : vbyteBytes n = [n + 128] := by
  rw [vbyteBytes]; simp [h]

theorem vbyteBytes_ge {n : Nat} (h : 128 ≤ n) :
    vbyteBytes n = (n % 128) :: vbyteBytes (n / 128) := by
  rw [vbyteBytes]; simp [Nat.not_lt.mpr h]

theorem bit_length_zero : bit_length 0 = 0 := by
  rw [bit_length]; simp

theorem bit_length_pos {n : Nat} (h : n ≠ 0) :
    bit_length n = bit_length (n / 2) + 1 := by
  rw [bit_length]; simp [h]

/-! ### Arithmetic facts about the 7-bit groups -/

theorem or_shift {c s : Nat} (x : Nat) (h : c < 2 ^ s) :
    c ||| (x <<< s) = c + x * 2 ^ s := by
  apply Nat.eq_of_testBit_eq
  intro i
  have hrhs : Nat.testBit (c + x * 2 ^ s) i =
      if i < s then Nat.testBit c i else Nat.testBit x (i - s) := by
    rw [Nat.add_comm c (x * 2 ^ s), Nat.mul_comm x (2 ^ s)]
    exact Nat.testBit_mul_pow_two_add x h i
  rw [hrhs, Nat.testBit_or, Nat.testBit_shiftLeft]
  by_cases hi : i < s
  · simp [hi, Nat.not_le.mpr hi]
  · have hs : s ≤ i := Nat.not_lt.mp hi
    have hc : Nat.testBit c i = false :=
      Nat.testBit_lt_two_pow (lt_of_lt_of_le h (Nat.pow_le_pow_right (by omega) hs))
    simp [hi, hs, hc]

theorem and_127_eq_mod (m : Nat) : m &&& 127 = m % 128 := by
  have : m &&& (2 ^ 7 - 1) = m % 2 ^ 7 := Nat.and_pow_two_sub_one_eq_mod m 7
  norm_num at this
  exact this

theorem and_128_testBit (m : Nat) : m &&& 128 = (Nat.testBit m 7).toNat * 128 := by
  have := Nat.and_two_pow m 7
  norm_num at this
  exact this

theorem term_byte_and_127 {n : Nat} (h : n < 128) : (n + 128) &&& 127 = n := by
  rw [and_127_eq_mod]; omega

theorem term_byte_and_128 {n : Nat} (h : n < 128) : (n + 128) &&& 128 ≠ 0 := by
  rw [and_128_testBit, Nat.testBit_to_div_mod]
  have h1 : (n + 128) / 2 ^ 7 % 2 = 1 := by
    have h2 : (2 : Nat) ^ 7 = 128 := by norm_num
    rw [h2]; omega
  rw [h1]; simp

theorem cont_byte_and_127 (m : Nat) : (m % 128) &&& 127 = m % 128 := by
  rw [and_127_eq_mod]; omega

theorem cont_byte_and_128 (m : Nat) : (m % 128) &&& 128 = 0 := by
  rw [and_128_testBit, Nat.testBit_to_div_mod]
  have h1 : m % 128 / 2 ^ 7 % 2 = 0 := by
    have h2 : (2 : Nat) ^ 7 = 128 := by norm_num
    rw [h2]; omega
  rw [h1]; simp

/-! ### Byte count of the VByte encoding -/

theorem bit_length_le (k : Nat) : ∀ n, bit_length n ≤ k ↔ n < 2 ^ k := by
  induction k with
  | zero =>
    intro n
    by_cases h : n = 0
    · subst h; simp [bit_length_zero]
    · rw [bit_length_pos h]
      simp
      omega
  | succ k ih =>
    intro n
    by_cases h : n = 0
    · subst h
      simp [bit_length_zero]
    · rw [bit_length_pos h, pow_succ]
      have h2 := ih (n / 2)
      constructor
      · intro hle
        have : n / 2 < 2 ^ k := h2.mp (by omega)
        omega
      · intro hlt
        have : n / 2 < 2 ^ k := by omega
        have := h2.mpr this
        omega

theorem bit_length_div_pow (k : Nat) : ∀ n, 2 ^ k ≤ n → bit_length (n / 2 ^ k) = bit_length n - k := by
  induction k with
  | zero => intro n _; simp
  | succ k ih =>
    intro n h
    have hn0 : n ≠ 0 := by
      have : 0 < 2 ^ (k + 1) := Nat.pos_pow_of_pos _ (by omega)
      omega
    have hdd : n / 2 ^ (k + 1) = n / 2 / 2 ^ k := by
      rw [Nat.div_div_eq_div_mul]
      congr 1
      rw [pow_succ]
      omega
    have hle : 2 ^ k ≤ n / 2 := by
      have h2 : 2 ^ (k + 1) = 2 ^ k * 2 := by rw [pow_succ]
      omega
    rw [hdd, ih (n / 2) hle, bit_length_pos hn0]
    omega

theorem vbyteBytes_length (n : Nat) :
    (vbyteBytes n).length = max 1 ((bit_length n + 6) / 7) := by
  by_cases h : n < 128
  · rw [vbyteBytes_lt h]
    have hb : bit_length n ≤ 7 := (bit_length_le 7 n).mpr (by norm_num; omega)
    simp
    omega
  · have h7 : 128 ≤ n := Nat.not_lt.mp h
    rw [vbyteBytes_ge h7]
    have ih := vbyteBytes_length (n / 128)
    have hd : bit_length (n / 128) = bit_length n - 7 := by
      have h8 := bit_length_div_pow 7 n (by norm_num; omega)
      norm_num at h8
      exact h8
    have hb : ¬ bit_length n ≤ 7 := by
      rw [bit_length_le 7 n]
      norm_num
      omega
    simp [ih, hd]
    omega
termination_by n
decreasing_by
  exact Nat.div_lt_self (by omega) (by omega)

/-! ### VByte round trip -/

theorem decodeGo_vbyteBytes (n : Nat) (c s : Nat) (acc rest : List Nat) (hc : c < 2 ^ s) :
    decodeGo (vbyteBytes n ++ rest) c s acc = decodeGo rest 0 0 (acc ++ [c + n * 2 ^ s]) := by
  by_cases h : n < 128
  · rw [vbyteBytes_lt h]
    simp only [List.cons_append, List.nil_append, decodeGo]
    rw [if_pos (term_byte_and_128 h), term_byte_and_127 h, or_shift n hc]
    rfl
  · have h7 : 128 ≤ n := Nat.not_lt.mp h
    rw [vbyteBytes_ge h7]
    simp only [List.cons_append, decodeGo]
    rw [if_neg (by simp [cont_byte_and_128]), cont_byte_and_127, or_shift (n % 128) hc]
    simp only [List.append_eq]
    have hlt : c + n % 128 * 2 ^ s < 2 ^ (s + 7) := by
      have e1 : (2 : Nat) ^ (s + 7) = 2 ^ s * 128 := by rw [pow_add]; norm_num
      have e2 : n % 128 * 2 ^ s ≤ 127 * 2 ^ s := Nat.mul_le_mul_right _ (by omega)
      have e3 : (0 : Nat) < 2 ^ s := Nat.pos_pow_of_pos _ (by omega)
      calc c + n % 128 * 2 ^ s < 2 ^ s + 127 * 2 ^ s := by omega
        _ = 2 ^ s * 128 := by ring
        _ = 2 ^ (s + 7) := e1.symm
    rw [decodeGo_vbyteBytes (n / 128) _ _ acc rest hlt]
    have key : c + n % 128 * 2 ^ s + n / 128 * 2 ^ (s + 7) = c + n * 2 ^ s := by
      have e1 : (2 : Nat) ^ (s + 7) = 2 ^ s * 128 := by rw [pow_add]; norm_num
      rw [e1]
      have e2 : n % 128 * 2 ^ s + n / 128 * (2 ^ s * 128) = n * 2 ^ s := by
        calc n % 128 * 2 ^ s + n / 128 * (2 ^ s * 128)
            = (n % 128 + 128 * (n / 128)) * 2 ^ s := by ring
          _ = n * 2 ^ s := by rw [Nat.mod_add_div]
      omega
    rw [key]
termination_by n
decreasing_by
  exact Nat.div_lt_self (by omega) (by omega)

theorem decodeGo_join (ns : List Nat) :
    ∀ acc, decodeGo ((ns.map vbyteBytes).flatten) 0 0 acc = Except.ok (acc ++ ns) := by
  induction ns with
  | nil => intro acc; simp [decodeGo]
  | cons n rest ih =>
    intro acc
    simp only [List.map_cons, List.flatten_cons]
    rw [decodeGo_vbyteBytes n 0 0 acc _ (by norm_num)]
    simp only [pow_zero, Nat.mul_one, Nat.zero_add]
    rw [ih (acc ++ [n])]
    simp

theorem vbyte_decode_encode (ns : List Nat) :
    vbyte_decode_stream ((ns.map vbyteBytes).flatten) = Except.ok ns := by
  unfold vbyte_decode_stream
  rw [decodeGo_join ns []]
  simp

/-! ### GAP round trip -/

theorem decFrom_gapsFrom (xs : List Int) : ∀ p, decFrom p (gapsFrom p xs) = xs := by
  induction xs with
  | nil => intro p; simp [gapsFrom, decFrom]
  | cons x xs ih =>
    intro p
    have hx : p + (x - p) = x := by ring
    simp [gapsFrom, decFrom, hx, ih]

theorem gap_decode_gap_encode (ps : List Int) : gap_decode (gap_encode ps) = ps := by
  cases ps with
  | nil => rfl
  | cons p rest => simp [gap_encode, gap_decode, decFrom_gapsFrom]

theorem gapsFrom_nonneg (xs : List Int) : ∀ p, List.Chain (· ≤ ·) p xs →
    ∀ g ∈ gapsFrom p xs, 0 ≤ g := by
  induction xs with
  | nil => intro p _ g hg; simp [gapsFrom] at hg
  | cons x xs ih =>
    intro p hch g hg
    rw [List.chain_cons] at hch
    simp only [gapsFrom, List.mem_cons] at hg
    rcases hg with h | h
    · have := hch.1; omega
    · exact ih x hch.2 g h

theorem gap_encode_nonneg {ps : List Int} (hs : List.Sorted (· ≤ ·) ps)
    (hn : ∀ x ∈ ps, 0 ≤ x) : ∀ g ∈ gap_encode ps, 0 ≤ g := by
  cases ps with
  | nil => intro g hg; simp [gap_encode] at hg
  | cons p rest =>
    intro g hg
    simp only [gap_encode, List.mem_cons] at hg
    rcases hg with h | h
    · subst h; exact hn g (by simp)
    · have hch : List.Chain (· ≤ ·) p rest := List.chain_iff_pairwise.mpr hs
      exact gapsFrom_nonneg rest p hch g h

/-! ### Whole-postings encoding -/

theorem vbyte_encode_postings_ok {gaps : List Int} (h : ∀ g ∈ gaps, 0 ≤ g) :
    vbyte_encode_postings gaps =
      Except.ok (((gaps.map Int.toNat).map vbyteBytes).flatten) := by
  induction gaps with
  | nil => simp [vbyte_encode_postings]
  | cons g gs ih =>
    have hg : ¬ g < 0 := by have := h g (by simp); omega
    have ih2 := ih (fun x hx => h x (by simp [hx]))
    simp [vbyte_encode_postings, vbyte_encode_number, hg, ih2]

theorem map_ofNat_map_toNat {gs : List Int} (h : ∀ g ∈ gs, 0 ≤ g) :
    (gs.map Int.toNat).map Int.ofNat = gs := by
  induction gs with
  | nil => simp
  | cons g gs ih =>
    simp only [List.map_cons]
    rw [ih (fun x hx => h x (by simp [hx]))]
    have : Int.ofNat g.toNat = g := Int.toNat_of_nonneg (h g (by simp))
    rw [this]

/-- C1: for every index mapping terms to sorted (strictly increasing, hence
duplicate-free), non-empty lists of non-negative integers, compressing and
then decompressing reproduces the index exactly, term for term and posting
for posting. -/
theorem C1_compress_roundtrip (I : List (String × List Int))
    (h : ∀ t ps, (t, ps) ∈ I → ps ≠ [] ∧ List.Sorted (· < ·) ps ∧ ∀ x ∈ ps, 0 ≤ x) :
    ∃ C, compress_index I = Except.ok C ∧ decompress_index C = Except.ok I := by
  induction I with
  | nil => exact ⟨[], rfl, rfl⟩
  | cons hd tl ih =>
    obtain ⟨t, ps⟩ := hd
    obtain ⟨hne, hsortLT, hnn⟩ := h t ps (by simp)
    have hsortLE : List.Sorted (· ≤ ·) ps := hsortLT.imp (fun hab => le_of_lt hab)
    have hg := gap_encode_nonneg hsortLE hnn
    have henc := vbyte_encode_postings_ok hg
    obtain ⟨C2, hC2, hD2⟩ := ih (fun t2 ps2 hm => h t2 ps2 (List.mem_cons_of_mem _ hm))
    refine ⟨(t, (((gap_encode ps).map Int.toNat).map vbyteBytes).flatten) :: C2, ?_, ?_⟩
    · simp [compress_index, henc, hC2]
    · have hdec : vbyte_decode_postings ((((gap_encode ps).map Int.toNat).map vbyteBytes).flatten)
          = Except.ok ((gap_encode ps).map Int.toNat) := vbyte_decode_encode _
      simp only [decompress_index, hdec, hD2, map_ofNat_map_toNat hg, gap_decode_gap_encode]

theorem C1_witness :
    ∃ C, compress_index [("a", [0, 3]), ("b", [300])] = Except.ok C ∧
      decompress_index C = Except.ok [("a", [0, 3]), ("b", [300])] :=
  C1_compress_roundtrip [("a", [0, 3]), ("b", [300])] (by
    intro t ps hmem
    simp only [List.mem_cons, List.mem_singleton, Prod.mk.injEq] at hmem
    rcases hmem with ⟨_, h2⟩ | ⟨⟨_, h2⟩ | hf⟩
    · subst h2
      refine ⟨by simp, by decide, by intro x hx; simp at hx; rcases hx with h | h <;> omega⟩
    · subst h2
      refine ⟨by simp, by decide, by intro x hx; simp at hx; omega⟩
    · simp at hf)

/-- C9: whenever compression (resp. decompression) succeeds, its output has
exactly the same terms, in the same order, as its input: no term is added or
dropped. -/
theorem C9_term_set_preserved :
    (∀ (I : List (String × List Int)) (C : List (String × List Nat)),
        compress_index I = Except.ok C → C.map Prod.fst = I.map Prod.fst)
    ∧ (∀ (C : List (String × List Nat)) (J : List (String × List Int)),
        decompress_index C = Except.ok J → J.map Prod.fst = C.map Prod.fst) := by
  constructor
  · intro I
    induction I with
    | nil =>
      intro C h
      simp only [compress_index] at h
      cases h
      rfl
    | cons hd tl ih =>
      obtain ⟨t, ps⟩ := hd
      intro C h
      simp only [compress_index] at h
      cases henc : vbyte_encode_postings (gap_encode ps) with
      | error e => rw [henc] at h; cases h
      | ok bs =>
        rw [henc] at h
        cases hrec : compress_index tl with
        | error e => rw [hrec] at h; cases h
        | ok r =>
          rw [hrec] at h
          cases h
          simp [ih r hrec]
  · intro C
    induction C with
    | nil =>
      intro J h
      simp only [decompress_index] at h
      cases h
      rfl
    | cons hd tl ih =>
      obtain ⟨t, bs⟩ := hd
      intro J h
      simp only [decompress_index] at h
      cases hdec : vbyte_decode_postings bs with
      | error e => rw [hdec] at h; cases h
      | ok ns =>
        rw [hdec] at h
        cases hrec : decompress_index tl with
        | error e => rw [hrec] at h; cases h
        | ok r =>
          rw [hrec] at h
          cases h
          simp [ih r hrec]

theorem C9_witness :
    [("a", (vbyteBytes 0 ++ vbyteBytes 3))].map Prod.fst
      = [("a", ([0, 3] : List Int))].map Prod.fst :=
  C9_term_set_preserved.1 [("a", [0, 3])] [("a", vbyteBytes 0 ++ vbyteBytes 3)] (by
    have h0 : vbyte_encode_number 0 = Except.ok (vbyteBytes 0) := by
      simp [vbyte_encode_number]
    have h3 : vbyte_encode_number 3 = Except.ok (vbyteBytes 3) := by
      simp [vbyte_encode_number]
    simp [compress_index, gap_encode, gapsFrom, vbyte_encode_postings, h0, h3])

/-- C3 (counterexample): at `n = 127` the code emits exactly one byte,
while the claimed byte count `ceil(bit_length(n+1)/7)` (with a minimum of
one byte) evaluates to 2, so the claimed formula is wrong there. -/
theorem C3_counterexample :
    ¬ ((vbyte_encode_number 127).map List.length
        = Except.ok (max 1 ((bit_length (Int.toNat (127 + 1)) + 6) / 7))) := by
  have h1 : vbyte_encode_number 127 = Except.ok [255] := by
    norm_num [vbyte_encode_number, vbyteBytes_lt, show Int.toNat 127 = 127 from rfl]
  have ht : Int.toNat (127 + 1) = 128 := rfl
  have h2 : bit_length (Int.toNat (127 + 1)) = 8 := by
    rw [ht]
    norm_num [bit_length_pos, bit_length_zero]
  rw [h1, h2]
  simp [Except.map]

/-- C3 (amended): `vbyte_encode_number` fails with the InvalidInput error
exactly when `n < 0`; for `n ≥ 0` it returns `ceil(bit_length(n)/7)` bytes
with a minimum of one byte, so 0 encodes to exactly one byte and 300 to
exactly two bytes. -/
theorem C3_encode_length (n : Int) :
    (vbyte_encode_number n = Except.error "VByte only supports non-negative integers" ↔ n < 0)
    ∧ (0 ≤ n → (vbyte_encode_number n).map List.length
        = Except.ok (max 1 ((bit_length n.toNat + 6) / 7)))
    ∧ (vbyte_encode_number 0).map List.length = Except.ok 1
    ∧ (vbyte_encode_number 300).map List.length = Except.ok 2 := by
  refine ⟨⟨?_, ?_⟩, ?_, ?_, ?_⟩
  · intro h
    by_contra hn
    simp [vbyte_encode_number, hn] at h
  · intro h
    simp [vbyte_encode_number, h]
  · intro h
    have hn : ¬ n < 0 := by omega
    simp [vbyte_encode_number, hn, vbyteBytes_length, Except.map]
  · have h0 : vbyte_encode_number 0 = Except.ok [128] := by
      norm_num [vbyte_encode_number, vbyteBytes_lt]
    simp [h0, Except.map]
  · have h300 : vbyteBytes 300 = [44, 130] := by
      simp [vbyteBytes_ge, vbyteBytes_lt]
    have he : vbyte_encode_number 300 = Except.ok [44, 130] := by
      norm_num [vbyte_encode_number, show Int.toNat 300 = 300 from rfl, h300]
    simp [he, Except.map]

theorem C3_witness :
    (vbyte_encode_number 300).map List.length
      = Except.ok (max 1 ((bit_length (Int.toNat 300) + 6) / 7)) :=
  (C3_encode_length 300).2.1 (by norm_num)

/-! ### Decoder failure characterisation -/

theorem decodeGo_error_iff (bl : List Nat) : ∀ (c s : Nat) (acc : List Nat),
    ((∃ e, decodeGo bl c s acc = Except.error e) ↔
      (bl = [] ∧ s ≠ 0) ∨ ∃ b, bl.getLast? = some b ∧ b &&& 128 = 0) := by
  induction bl with
  | nil =>
    intro c s acc
    by_cases h : s = 0 <;> simp [decodeGo, h]
  | cons b rest ih =>
    intro c s acc
    by_cases hb : b &&& 128 ≠ 0
    · simp only [decodeGo, if_pos hb]
      rw [ih 0 0 (acc ++ [c ||| ((b &&& 127) <<< s)])]
      cases rest with
      | nil => simp [hb]
      | cons x xs => simp [List.getLast?_cons_cons]
    · simp only [decodeGo, if_neg hb]
      have hb0 : b &&& 128 = 0 := by simpa using hb
      rw [ih (c ||| ((b &&& 127) <<< s)) (s + 7) acc]
      cases rest with
      | nil => simp [hb0]
      | cons x xs => simp [List.getLast?_cons_cons]

theorem decompress_error_of_mem {cidx : List (String × List Nat)} {t : String} {bs : List Nat}
    (hmem : (t, bs) ∈ cidx) {e : String}
    (herr : vbyte_decode_postings bs = Except.error e) :
    ∃ e2, decompress_index cidx = Except.error e2 := by
  induction cidx with
  | nil => simp at hmem
  | cons hd tl ih =>
    obtain ⟨t0, bs0⟩ := hd
    simp only [decompress_index]
    rcases List.mem_cons.mp hmem with heq | hmem2
    · rw [Prod.mk.injEq] at heq
      obtain ⟨h1, h2⟩ := heq
      rw [← h2, herr]
      exact ⟨e, rfl⟩
    · cases hdec : vbyte_decode_postings bs0 with
      | error e0 => exact ⟨e0, rfl⟩
      | ok ns =>
        obtain ⟨e2, h2⟩ := ih hmem2
        rw [h2]
        exact ⟨e2, rfl⟩

/-- C5: `vbyte_decode_stream` fails (with the MalformedStream error) exactly
when the byte sequence ends mid-number — its last byte lacks the terminator
(high) bit, leaving a non-terminated partial accumulation at end of input —
and `decompress_index` fails on any compact index containing a term whose
byte sequence does not fully decode. -/
theorem C5_malformed (bl : List Nat) (cidx : List (String × List Nat)) :
    ((∃ e, vbyte_decode_stream bl = Except.error e) ↔
      ∃ b, bl.getLast? = some b ∧ b &&& 128 = 0)
    ∧ ((∃ t bs, (t, bs) ∈ cidx ∧ ∃ e, vbyte_decode_stream bs = Except.error e) →
      ∃ e, decompress_index cidx = Except.error e) := by
  constructor
  · unfold vbyte_decode_stream
    rw [decodeGo_error_iff bl 0 0 []]
    simp
  · rintro ⟨t, bs, hmem, e, herr⟩
    exact decompress_error_of_mem hmem herr

theorem C5_witness : ∃ e, decompress_index [("a", [5])] = Except.error e :=
  (C5_malformed [5] [("a", [5])]).2 ⟨"a", [5], by simp, "Incomplete VByte stream", rfl⟩

/-! ### IndexMaintainer — src/maintenance.py -/

/-- The body of `add_document`'s per-term update after
`postings = index.setdefault(term, [])`:
`if doc_id not in postings: postings.append(doc_id); postings.sort()`. -/
def addPosting (doc_id : Int) (postings : List Int) : List Int :=
  if doc_id ∈ postings then postings
  else List.insertionSort (· ≤ ·) (postings ++ [doc_id])

/-- One iteration of the `for term in tokens` loop of `add_document`:
`index.setdefault(term, [])` keeps an existing entry (and its position) or
appends a fresh one at the end, then the postings update runs on it. -/
def add_term (index : List (String × List Int)) (doc_id : Int) (t : String) :
    List (String × List Int) :=
  match index with
  | [] => [(t, addPosting doc_id [])]
  | (k, ps) :: rest =>
    if k = t then (k, addPosting doc_id ps) :: rest
    else (k, ps) :: add_term rest doc_id t

/-- `add_document(index, doc_id, tokens)`: the index value after the
in-place mutation. -/
def add_document (index : List (String × List Int)) (doc_id : Int)
    (tokens : List String) : List (String × List Int) :=
  tokens.foldl (fun i t => add_term i doc_id t) index

/-- `remove_document(index, doc_id)`: for each term, if `doc_id` is in its
postings list, remove the first occurrence (`list.remove`), and delete the
term only when that removal emptied the list (`terms_to_delete`).  An entry
whose postings list did not contain `doc_id` — including one that was
already empty — is kept unchanged. -/
def remove_document (index : List (String × List Int)) (doc_id : Int) :
    List (String × List Int) :=
  index.filterMap (fun p =>
    if doc_id ∈ p.2 then
      if (p.2.erase doc_id).isEmpty then none else some (p.1, p.2.erase doc_id)
    else some p)

/-- C10: adding a document with an empty token sequence leaves the index
completely unchanged. -/
theorem C10_add_document_empty (index : List (String × List Int)) (doc_id : Int) :
    add_document index doc_id [] = index := rfl

/-- C7 (counterexample): the index `{"x": []}` has duplicate-free postings
lists, yet after `remove_document` the term `"x"` still maps to the empty
list — the source deletes a term only when removing `doc_id` emptied its
list, so a pre-existing empty entry survives, falsifying the unconditional
"no term maps to an empty postings list" conclusion. -/
theorem C7_counterexample :
    (∀ t ps, (t, ps) ∈ [("x", ([] : List Int))] → ps.Nodup)
    ∧ remove_document [("x", ([] : List Int))] 0 = [("x", [])]
    ∧ ¬ (∀ t ps, (t, ps) ∈ remove_document [("x", ([] : List Int))] 0 →
          (0 : Int) ∉ ps ∧ ps ≠ []) := by
  refine ⟨?_, rfl, ?_⟩
  · intro t ps hmem
    simp only [List.mem_singleton, Prod.mk.injEq] at hmem
    rw [hmem.2]
    exact List.nodup_nil
  · intro h
    have h2 := h "x" [] (by decide)
    exact h2.2 rfl

/-- C7 (amended): starting from an index whose postings lists are
duplicate-free and non-empty (the data-model invariant), after
`remove_document` no term maps to a postings list containing the removed
document id, and no term maps to an empty postings list. -/
theorem C7_remove_document (index : List (String × List Int)) (doc_id : Int)
    (hnd : ∀ t ps, (t, ps) ∈ index → ps.Nodup ∧ ps ≠ []) :
    ∀ t ps, (t, ps) ∈ remove_document index doc_id → doc_id ∉ ps ∧ ps ≠ [] := by
  intro t ps hmem
  unfold remove_document at hmem
  rw [List.mem_filterMap] at hmem
  obtain ⟨⟨t0, ps0⟩, hmem0, heq⟩ := hmem
  by_cases hin : doc_id ∈ ps0
  · rw [if_pos hin] at heq
    by_cases hemp : (ps0.erase doc_id).isEmpty
    · rw [if_pos hemp] at heq
      cases heq
    · rw [if_neg hemp] at heq
      injection heq with heq
      rw [Prod.mk.injEq] at heq
      obtain ⟨h1, h2⟩ := heq
      constructor
      · rw [← h2]
        exact (hnd t0 ps0 hmem0).1.not_mem_erase
      · rw [← h2]
        intro hc
        rw [hc] at hemp
        exact hemp rfl
  · rw [if_neg hin] at heq
    injection heq with heq
    rw [Prod.mk.injEq] at heq
    obtain ⟨h1, h2⟩ := heq
    rw [← h2]
    exact ⟨hin, (hnd t0 ps0 hmem0).2⟩

theorem C7_witness : (2 : Int) ∉ ([1] : List Int) ∧ ([1] : List Int) ≠ [] :=
  C7_remove_document [("a", [2]), ("b", [1, 2])] 2 (by
    intro t ps hmem
    simp only [List.mem_cons, List.mem_singleton, Prod.mk.injEq] at hmem
    rcases hmem with ⟨_, h2⟩ | ⟨⟨_, h2⟩ | hf⟩
    · subst h2
      exact ⟨by decide, by decide⟩
    · subst h2
      exact ⟨by decide, by decide⟩
    · simp at hf) "b" [1] (by decide)

/-! ### Idempotence of add_document -/

theorem mem_addPosting_self (doc_id : Int) (ps : List Int) :
    doc_id ∈ addPosting doc_id ps := by
  unfold addPosting
  by_cases h : doc_id ∈ ps
  · simp [h]
  · rw [if_neg h]
    exact ((List.perm_insertionSort _ _).mem_iff).mpr (by simp)

theorem addPosting_of_mem {doc_id : Int} {ps : List Int} (h : doc_id ∈ ps) :
    addPosting doc_id ps = ps := by
  simp [addPosting, h]

theorem getVal_add_term_self (index : List (String × List Int)) (doc_id : Int) (t : String) :
    getVal t (add_term index doc_id t)
      = some (addPosting doc_id ((getVal t index).getD [])) := by
  induction index with
  | nil => simp [add_term, getVal]
  | cons hd rest ih =>
    obtain ⟨k, ps⟩ := hd
    by_cases hk : k = t
    · subst hk
      simp [add_term, getVal]
    · simp [add_term, getVal, hk, ih]

theorem getVal_add_term_other {t2 t : String} (h : t2 ≠ t)
    (index : List (String × List Int)) (doc_id : Int) :
    getVal t2 (add_term index doc_id t) = getVal t2 index := by
  induction index with
  | nil =>
    simp [add_term, getVal]
    intro hc
    exact absurd hc.symm h
  | cons hd rest ih =>
    obtain ⟨k, ps⟩ := hd
    by_cases hk : k = t
    · subst hk
      have hkt : ¬ k = t2 := fun hc => h (hc.symm)
      simp [add_term, getVal, hkt]
    · simp only [add_term, if_neg hk]
      by_cases hk2 : k = t2
      · subst hk2
        simp [getVal]
      · simp [getVal, hk2, ih]

theorem add_term_of_mem {index : List (String × List Int)} {t : String} {ps : List Int}
    {doc_id : Int} (h : getVal t index = some ps) (hd : doc_id ∈ ps) :
    add_term index doc_id t = index := by
  induction index with
  | nil => simp [getVal] at h
  | cons hd0 rest ih =>
    obtain ⟨k, ps0⟩ := hd0
    by_cases hk : k = t
    · subst hk
      simp [getVal] at h
      subst h
      simp [add_term, addPosting_of_mem hd]
    · simp only [getVal, if_neg hk] at h
      simp [add_term, hk, ih h]

/-- `doc_id` occurs in the postings list the index holds for `t`. -/
def HasPosting (index : List (String × List Int)) (t : String) (doc_id : Int) : Prop :=
  ∃ ps, getVal t index = some ps ∧ doc_id ∈ ps

theorem hasPosting_add_term_self (index : List (String × List Int)) (doc_id : Int)
    (t : String) : HasPosting (add_term index doc_id t) t doc_id :=
  ⟨_, getVal_add_term_self index doc_id t, mem_addPosting_self doc_id _⟩

theorem hasPosting_add_term {index : List (String × List Int)} {t : String} {doc_id : Int}
    (h : HasPosting index t doc_id) (t2 : String) :
    HasPosting (add_term index doc_id t2) t doc_id := by
  by_cases ht : t = t2
  · subst ht
    exact hasPosting_add_term_self index doc_id t
  · obtain ⟨ps, hget, hmem⟩ := h
    exact ⟨ps, by rw [getVal_add_term_other ht index doc_id]; exact hget, hmem⟩

theorem hasPosting_add_document {index : List (String × List Int)} {t : String}
    {doc_id : Int} (h : HasPosting index t doc_id) (tokens : List String) :
    HasPosting (add_document index doc_id tokens) t doc_id := by
  induction tokens generalizing index with
  | nil => exact h
  | cons t0 rest ih => exact ih (hasPosting_add_term h t0)

theorem hasPosting_after_add (tokens : List String) :
    ∀ (index : List (String × List Int)) (doc_id : Int) (t : String), t ∈ tokens →
      HasPosting (add_document index doc_id tokens) t doc_id := by
  induction tokens with
  | nil => intro index doc_id t ht; simp at ht
  | cons t0 rest ih =>
    intro index doc_id t ht
    rcases List.mem_cons.mp ht with heq | hmem
    · subst heq
      exact hasPosting_add_document (hasPosting_add_term_self index doc_id t) rest
    · exact ih (add_term index doc_id t0) doc_id t hmem

theorem add_document_of_hasPosting {tokens : List String} :
    ∀ {index : List (String × List Int)} {doc_id : Int},
      (∀ t ∈ tokens, HasPosting index t doc_id) →
      add_document index doc_id tokens = index := by
  induction tokens with
  | nil => intro index doc_id _; rfl
  | cons t0 rest ih =>
    intro index doc_id h
    obtain ⟨ps, hget, hmem⟩ := h t0 (by simp)
    show add_document (add_term index doc_id t0) doc_id rest = index
    rw [add_term_of_mem hget hmem]
    exact ih (fun t ht => h t (List.mem_cons_of_mem _ ht))

/-- C8: `add_document` is idempotent — adding the same `(doc_id, tokens)`
twice yields the same index as adding it once. -/
theorem C8_add_document_idempotent (index : List (String × List Int)) (doc_id : Int)
    (tokens : List String) :
    add_document (add_document index doc_id tokens) doc_id tokens
      = add_document index doc_id tokens :=
  add_document_of_hasPosting (fun t ht => hasPosting_after_add tokens index doc_id t ht)

/-! ### SequentialIndexBuilder — src/preprocess_build_index.py

A Python `set` of document ids is modelled as its insertion-ordered,
duplicate-free list of elements; since every set is sorted before it is
exposed, the iteration order of the set never reaches the result. -/

/-- `set.add` on the insertion-ordered model: append if not present. -/
def setAdd (s : List Nat) (x : Nat) : List Nat :=
  if x ∈ s then s else s ++ [x]

/-- `inverted_index[term].add(doc_id)` on a `defaultdict(set)`: update the
existing entry in place, or append a fresh entry holding just `doc_id`. -/
def indexAdd (index : List (String × List Nat)) (t : String) (doc_id : Nat) :
    List (String × List Nat) :=
  match index with
  | [] => [(t, [doc_id])]
  | (k, s) :: rest =>
    if k = t then (k, setAdd s doc_id) :: rest else (k, s) :: indexAdd rest t doc_id

/-- The inner loop `for term in tokens: inverted_index[term].add(doc_id)`. -/
def processDoc (index : List (String × List Nat)) (doc_id : Nat)
    (tokens : List String) : List (String × List Nat) :=
  tokens.foldl (fun i t => indexAdd i t doc_id) index

/-- The loop over `(doc_id, tokens)` pairs, shared by
`build_inverted_index` (which runs it on `enumerate(preprocessed_docs)`)
and by the per-chunk builder of the parallel module (which runs the same
loop on a chunk of pairs). -/
def buildPairs (index : List (String × List Nat))
    (pairs : List (Nat × List String)) : List (String × List Nat) :=
  pairs.foldl (fun i p => processDoc i p.1 p.2) index

/-- The final comprehension `{term: sorted(list(doc_ids)) for ...}` of both
builders: sort every entry's id set, keeping the key order. -/
def sortVals (index : List (String × List Nat)) : List (String × List Nat) :=
  index.map (fun p => (p.1, List.insertionSort (· ≤ ·) p.2))

/-- `build_inverted_index(preprocessed_docs)`. -/
def build_inverted_index (preprocessed_docs : List (List String)) :
    List (String × List Nat) :=
  sortVals (buildPairs [] preprocessed_docs.enum)

/-! ### ParallelIndexBuilder — src/parallel_indexing.py -/

/-- The worker routine (`_build_partial_index` in the source): the
sequential loop restricted to one chunk of `(doc_id, tokens)` pairs. -/
def build_chunk_index (doc_pairs : List (Nat × List String)) :
    List (String × List Nat) :=
  buildPairs [] doc_pairs

/-- `base[term]` on a `defaultdict(set)`: materialise an empty entry at the
end if the term is absent. -/
def touch (base : List (String × List Nat)) (t : String) :
    List (String × List Nat) :=
  match getVal t base with
  | some _ => base
  | none => base ++ [(t, [])]

/-- `base[term].update(doc_ids)`: materialise the entry, then add each id. -/
def updateSet (base : List (String × List Nat)) (t : String) (s : List Nat) :
    List (String × List Nat) :=
  s.foldl (fun b d => indexAdd b t d) (touch base t)

/-- `_merge_indexes(base, other)` (the value of `base` after the in-place
merge): for every `(term, doc_ids)` of `other`, `base[term].update(doc_ids)`. -/
def merge_indexes (base other : List (String × List Nat)) :
    List (String × List Nat) :=
  other.foldl (fun b p => updateSet b p.1 p.2) base

/-- The slicing `[doc_pairs[i:i+chunk_size] for i in range(0, len(doc_pairs),
chunk_size)]`, for a positive chunk size (the source guarantees
`chunk_size = max(1, ...) ≥ 1`). -/
def chunksOf (size : Nat) : List α → List (List α)
  | [] => []
  | x :: xs => (x :: xs.take (size - 1)) :: chunksOf size (xs.drop (size - 1))
termination_by l => l.length
decreasing_by
  simp only [List.length_drop, List.length_cons]
  omega

/-- The chunk list built by `build_inverted_index_parallel`.  The source
overwrites the requested worker count with the constant 4 (`n_workers = 4`)
before computing `chunk_size = max(1, len(doc_pairs) // n_workers)`. -/
def parallel_chunks (preprocessed_docs : List (List String)) (n_workers : Nat) :
    List (List (Nat × List String)) :=
  let n_workers := 4
  let doc_pairs := preprocessed_docs.enum
  let chunk_size := max 1 (doc_pairs.length / n_workers)
  chunksOf chunk_size doc_pairs

/-- `build_inverted_index_parallel(preprocessed_docs, n_workers)`:
one worker result per chunk (`pool.map` returns them in chunk order), merged
left to right into a fresh `defaultdict(set)`, then sorted per term. -/
def build_inverted_index_parallel (preprocessed_docs : List (List String))
    (n_workers : Nat) : List (String × List Nat) :=
  let chunks := parallel_chunks preprocessed_docs n_workers
  let worker_results := chunks.map build_chunk_index
  sortVals (worker_results.foldl merge_indexes [])

/-! ### Semantic characterisation of the raw (pre-sort) indexes

`Represents index Q` says the id set the index holds for each term is
exactly `Q`: absent terms have no ids, present terms hold a non-empty,
duplicate-free list of exactly the ids related to them by `Q`. -/

def Represents (index : List (String × List Nat)) (Q : String → Nat → Prop) : Prop :=
  ∀ t, (getVal t index = none → ∀ d, ¬ Q t d)
    ∧ (∀ s, getVal t index = some s → s.Nodup ∧ s ≠ [] ∧ ∀ d, d ∈ s ↔ Q t d)

theorem represents_congr {index : List (String × List Nat)}
    {Q R : String → Nat → Prop} (h : Represents index Q)
    (hiff : ∀ t d, Q t d ↔ R t d) : Represents index R := by
  intro t
  obtain ⟨h1, h2⟩ := h t
  refine ⟨fun hn d hR => h1 hn d ((hiff t d).mpr hR), fun s hs => ?_⟩
  obtain ⟨hnd, hne, hmem⟩ := h2 s hs
  exact ⟨hnd, hne, fun d => (hmem d).trans (hiff t d)⟩

theorem represents_empty : Represents [] (fun _ _ => False) := by
  intro t
  constructor
  · intro _ d hF
    exact hF
  · intro s hs
    simp [getVal] at hs

/-! #### setAdd -/

theorem mem_setAdd {s : List Nat} {x d : Nat} :
    x ∈ setAdd s d ↔ x ∈ s ∨ x = d := by
  unfold setAdd
  by_cases h : d ∈ s
  · simp only [if_pos h]
    constructor
    · exact Or.inl
    · rintro (hx | rfl) <;> assumption
  · simp [if_neg h]

theorem nodup_setAdd {s : List Nat} (h : s.Nodup) (d : Nat) :
    (setAdd s d).Nodup := by
  unfold setAdd
  by_cases hd : d ∈ s
  · rw [if_pos hd]
    exact h
  · rw [if_neg hd]
    refine List.Nodup.append h (List.nodup_singleton d) ?_
    intro a ha hb
    simp only [List.mem_singleton] at hb
    subst hb
    exact hd ha

theorem setAdd_ne_nil (s : List Nat) (d : Nat) : setAdd s d ≠ [] := by
  have hmem : d ∈ setAdd s d := mem_setAdd.mpr (Or.inr rfl)
  intro hc
  rw [hc] at hmem
  exact absurd hmem (List.not_mem_nil d)

theorem setAdd_idem (s : List Nat) (d : Nat) :
    setAdd (setAdd s d) d = setAdd s d := by
  have hmem : d ∈ setAdd s d := mem_setAdd.mpr (Or.inr rfl)
  show (if d ∈ setAdd s d then setAdd s d else setAdd s d ++ [d]) = setAdd s d
  rw [if_pos hmem]

/-! #### indexAdd and processDoc lookups -/

theorem getVal_indexAdd_self (index : List (String × List Nat)) (t : String)
    (doc_id : Nat) :
    getVal t (indexAdd index t doc_id)
      = some (setAdd ((getVal t index).getD []) doc_id) := by
  induction index with
  | nil => simp [indexAdd, getVal, setAdd]
  | cons hd rest ih =>
    obtain ⟨k, s⟩ := hd
    by_cases hk : k = t
    · subst hk
      simp [indexAdd, getVal]
    · simp [indexAdd, getVal, hk, ih]

theorem getVal_indexAdd_other {t2 t : String} (h : t2 ≠ t)
    (index : List (String × List Nat)) (doc_id : Nat) :
    getVal t2 (indexAdd index t doc_id) = getVal t2 index := by
  induction index with
  | nil =>
    simp [indexAdd, getVal]
    intro hc
    exact absurd hc.symm h
  | cons hd rest ih =>
    obtain ⟨k, s⟩ := hd
    by_cases hk : k = t
    · subst hk
      have hkt : ¬ k = t2 := fun hc => h hc.symm
      simp [indexAdd, getVal, hkt]
    · simp only [indexAdd, if_neg hk]
      by_cases hk2 : k = t2
      · subst hk2
        simp [getVal]
      · simp [getVal, hk2, ih]

theorem getVal_processDoc (tokens : List String) :
    ∀ (index : List (String × List Nat)) (doc_id : Nat) (t : String),
    getVal t (processDoc index doc_id tokens)
      = if t ∈ tokens then some (setAdd ((getVal t index).getD []) doc_id)
        else getVal t index := by
  induction tokens with
  | nil => intro index doc_id t; simp [processDoc]
  | cons tok rest ih =>
    intro index doc_id t
    show getVal t (processDoc (indexAdd index tok doc_id) doc_id rest) = _
    rw [ih (indexAdd index tok doc_id) doc_id t]
    by_cases htr : t ∈ rest
    · rw [if_pos htr, if_pos (List.mem_cons_of_mem _ htr)]
      by_cases htk : tok = t
      · subst htk
        rw [getVal_indexAdd_self]
        simp [setAdd_idem]
      · have hne : t ≠ tok := fun hc => htk hc.symm
        rw [getVal_indexAdd_other hne index doc_id]
    · rw [if_neg htr]
      by_cases htk : tok = t
      · subst htk
        rw [getVal_indexAdd_self, if_pos (List.mem_cons_self _ _)]
      · have hne : t ≠ tok := fun hc => htk hc.symm
        rw [getVal_indexAdd_other hne index doc_id]
        rw [if_neg (by simp [htr, hne])]

theorem represents_processDoc {index : List (String × List Nat)}
    {Q : String → Nat → Prop} (h : Represents index Q) (doc_id : Nat)
    (tokens : List String) :
    Represents (processDoc index doc_id tokens)
      (fun t d => Q t d ∨ (t ∈ tokens ∧ d = doc_id)) := by
  intro t
  have hA := getVal_processDoc tokens index doc_id t
  by_cases ht : t ∈ tokens
  · rw [if_pos ht] at hA
    constructor
    · intro hn
      rw [hA] at hn
      cases hn
    · intro s hs
      rw [hA] at hs
      injection hs with hs
      subst hs
      cases hg : getVal t index with
      | none =>
        have hQ := (h t).1 hg
        simp only [hg, Option.getD_none]
        refine ⟨nodup_setAdd (by simp) doc_id, setAdd_ne_nil _ _, fun d => ?_⟩
        rw [mem_setAdd]
        simp only [List.not_mem_nil, false_or]
        constructor
        · intro hd; exact Or.inr ⟨ht, hd⟩
        · rintro (hQd | ⟨_, hd⟩)
          · exact absurd hQd (hQ d)
          · exact hd
      | some s0 =>
        obtain ⟨hnd, _, hmem⟩ := (h t).2 s0 hg
        simp only [hg, Option.getD_some]
        refine ⟨nodup_setAdd hnd doc_id, setAdd_ne_nil _ _, fun d => ?_⟩
        rw [mem_setAdd, hmem d]
        constructor
        · rintro (hQd | rfl)
          · exact Or.inl hQd
          · exact Or.inr ⟨ht, rfl⟩
        · rintro (hQd | ⟨_, rfl⟩)
          · exact Or.inl hQd
          · exact Or.inr rfl
  · rw [if_neg ht] at hA
    rw [hA]
    constructor
    · intro hn d
      have := (h t).1 hn d
      rintro (hQd | ⟨htc, _⟩)
      · exact this hQd
      · exact ht htc
    · intro s hs
      obtain ⟨hnd, hne, hmem⟩ := (h t).2 s hs
      refine ⟨hnd, hne, fun d => ?_⟩
      rw [hmem d]
      constructor
      · exact Or.inl
      · rintro (hQd | ⟨htc, _⟩)
        · exact hQd
        · exact absurd htc ht

theorem represents_buildPairs (pairs : List (Nat × List String)) :
    ∀ (index : List (String × List Nat)) (Q : String → Nat → Prop),
    Represents index Q →
    Represents (buildPairs index pairs)
      (fun t d => Q t d ∨ ∃ doc, (d, doc) ∈ pairs ∧ t ∈ doc) := by
  induction pairs with
  | nil =>
    intro index Q h
    exact represents_congr h (by simp)
  | cons pr rest ih =>
    intro index Q h
    obtain ⟨d0, doc0⟩ := pr
    have h1 := represents_processDoc h d0 doc0
    have h2 := ih (processDoc index d0 doc0) _ h1
    apply represents_congr h2
    intro t d
    simp only [List.mem_cons, Prod.mk.injEq]
    constructor
    · rintro ((hQ | ⟨htd, rfl⟩) | ⟨doc, hmem, htd⟩)
      · exact Or.inl hQ
      · exact Or.inr ⟨doc0, Or.inl ⟨rfl, rfl⟩, htd⟩
      · exact Or.inr ⟨doc, Or.inr hmem, htd⟩
    · rintro (hQ | ⟨doc, ⟨rfl, rfl⟩ | hmem, htd⟩)
      · exact Or.inl (Or.inl hQ)
      · exact Or.inl (Or.inr ⟨htd, rfl⟩)
      · exact Or.inr ⟨doc, hmem, htd⟩

theorem represents_build (pairs : List (Nat × List String)) :
    Represents (buildPairs [] pairs)
      (fun t d => ∃ doc, (d, doc) ∈ pairs ∧ t ∈ doc) := by
  have := represents_buildPairs pairs [] _ represents_empty
  exact represents_congr this (by simp)

/-! #### Lookups through touch, updateSet and merge_indexes -/

theorem getVal_touch_self (base : List (String × List Nat)) (t : String) :
    getVal t (touch base t) = some ((getVal t base).getD []) := by
  unfold touch
  cases hg : getVal t base with
  | some s => simp [hg]
  | none => simp [getVal_append_sing_self _ base hg]

theorem getVal_touch_other {t2 t : String} (h : t2 ≠ t)
    (base : List (String × List Nat)) :
    getVal t2 (touch base t) = getVal t2 base := by
  unfold touch
  cases hg : getVal t base with
  | some s => rfl
  | none => exact getVal_append_sing_ne _ base (fun hc => h hc.symm)

/-- The id set after `update`: fold `setAdd` over the added ids. -/
def sUnion (a : List Nat) (s : List Nat) : List Nat :=
  s.foldl setAdd a

theorem mem_sUnion (s : List Nat) : ∀ (a : List Nat) (x : Nat),
    x ∈ sUnion a s ↔ x ∈ a ∨ x ∈ s := by
  induction s with
  | nil => intro a x; simp [sUnion]
  | cons d rest ih =>
    intro a x
    show x ∈ sUnion (setAdd a d) rest ↔ _
    rw [ih (setAdd a d) x, mem_setAdd]
    simp only [List.mem_cons]
    tauto

theorem nodup_sUnion (s : List Nat) : ∀ {a : List Nat}, a.Nodup →
    (sUnion a s).Nodup := by
  induction s with
  | nil => intro a h; exact h
  | cons d rest ih =>
    intro a h
    exact ih (nodup_setAdd h d)

theorem sUnion_ne_nil_left {a : List Nat} (s : List Nat) (h : a ≠ []) :
    sUnion a s ≠ [] := by
  obtain ⟨x, hx⟩ := List.exists_mem_of_ne_nil a h
  intro hc
  have := (mem_sUnion s a x).mpr (Or.inl hx)
  rw [hc] at this
  exact absurd this (List.not_mem_nil x)

theorem sUnion_ne_nil_right (a : List Nat) {s : List Nat} (h : s ≠ []) :
    sUnion a s ≠ [] := by
  obtain ⟨x, hx⟩ := List.exists_mem_of_ne_nil s h
  intro hc
  have := (mem_sUnion s a x).mpr (Or.inr hx)
  rw [hc] at this
  exact absurd this (List.not_mem_nil x)

theorem getVal_fold_indexAdd_self (s : List Nat) :
    ∀ (b : List (String × List Nat)) (t : String) (a : List Nat),
    getVal t b = some a →
    getVal t (s.foldl (fun b2 d => indexAdd b2 t d) b) = some (sUnion a s) := by
  induction s with
  | nil => intro b t a h; exact h
  | cons d rest ih =>
    intro b t a h
    show getVal t (rest.foldl _ (indexAdd b t d)) = _
    have hstep : getVal t (indexAdd b t d) = some (setAdd a d) := by
      rw [getVal_indexAdd_self, h]
      rfl
    exact ih (indexAdd b t d) t (setAdd a d) hstep

theorem getVal_fold_indexAdd_other (s : List Nat) {t2 t : String} (h : t2 ≠ t) :
    ∀ (b : List (String × List Nat)),
    getVal t2 (s.foldl (fun b2 d => indexAdd b2 t d) b) = getVal t2 b := by
  induction s with
  | nil => intro b; rfl
  | cons d rest ih =>
    intro b
    show getVal t2 (rest.foldl _ (indexAdd b t d)) = _
    rw [ih (indexAdd b t d), getVal_indexAdd_other h b d]

theorem getVal_updateSet_self (base : List (String × List Nat)) (t : String)
    (s : List Nat) :
    getVal t (updateSet base t s) = some (sUnion ((getVal t base).getD []) s) :=
  getVal_fold_indexAdd_self s (touch base t) t _ (getVal_touch_self base t)

theorem getVal_updateSet_other {t2 t : String} (h : t2 ≠ t)
    (base : List (String × List Nat)) (s : List Nat) :
    getVal t2 (updateSet base t s) = getVal t2 base := by
  unfold updateSet
  rw [getVal_fold_indexAdd_other s h (touch base t), getVal_touch_other h base]

theorem represents_updateSet {base : List (String × List Nat)}
    {Qb : String → Nat → Prop} (hb : Represents base Qb) (t0 : String)
    {s0 : List Nat} (hs0 : s0 ≠ []) :
    Represents (updateSet base t0 s0)
      (fun t d => Qb t d ∨ (t = t0 ∧ d ∈ s0)) := by
  intro t
  by_cases ht : t = t0
  · subst ht
    constructor
    · intro hn
      rw [getVal_updateSet_self base t s0] at hn
      cases hn
    · intro s hs
      rw [getVal_updateSet_self base t s0] at hs
      injection hs with hs
      subst hs
      cases hg : getVal t base with
      | none =>
        have hQ := (hb t).1 hg
        simp only [hg, Option.getD_none]
        refine ⟨nodup_sUnion s0 (by simp), sUnion_ne_nil_right [] hs0, fun d => ?_⟩
        rw [mem_sUnion]
        simp only [List.not_mem_nil, false_or]
        constructor
        · intro hd
          exact Or.inr ⟨trivial, hd⟩
        · rintro (hQd | ⟨_, hd⟩)
          · exact absurd hQd (hQ d)
          · exact hd
      | some sb =>
        obtain ⟨hnd, hne, hmem⟩ := (hb t).2 sb hg
        simp only [hg, Option.getD_some]
        refine ⟨nodup_sUnion s0 hnd, sUnion_ne_nil_left s0 hne, fun d => ?_⟩
        rw [mem_sUnion, hmem d]
        constructor
        · rintro (hQd | hd)
          · exact Or.inl hQd
          · exact Or.inr ⟨trivial, hd⟩
        · rintro (hQd | ⟨_, hd⟩)
          · exact Or.inl hQd
          · exact Or.inr hd
  · constructor
    · intro hn d
      rw [getVal_updateSet_other ht base s0] at hn
      have := (hb t).1 hn d
      rintro (hQd | ⟨htc, _⟩)
      · exact this hQd
      · exact ht htc
    · intro s hs
      rw [getVal_updateSet_other ht base s0] at hs
      obtain ⟨hnd, hne, hmem⟩ := (hb t).2 s hs
      refine ⟨hnd, hne, fun d => ?_⟩
      rw [hmem d]
      constructor
      · exact Or.inl
      · rintro (hQd | ⟨htc, _⟩)
        · exact hQd
        · exact absurd htc ht

theorem represents_merge (other : List (String × List Nat)) :
    ∀ (base : List (String × List Nat)) (Qb : String → Nat → Prop),
    Represents base Qb →
    (∀ t s, (t, s) ∈ other → s ≠ []) →
    Represents (merge_indexes base other)
      (fun t d => Qb t d ∨ ∃ s, (t, s) ∈ other ∧ d ∈ s) := by
  induction other with
  | nil =>
    intro base Qb hb _
    exact represents_congr hb (by simp)
  | cons pr rest ih =>
    intro base Qb hb hne
    obtain ⟨t0, s0⟩ := pr
    have hs0 : s0 ≠ [] := hne t0 s0 (by simp)
    have h1 := represents_updateSet hb t0 hs0
    have h2 := ih (updateSet base t0 s0) _ h1
      (fun t s hm => hne t s (List.mem_cons_of_mem _ hm))
    apply represents_congr h2
    intro t d
    simp only [List.mem_cons, Prod.mk.injEq]
    constructor
    · rintro ((hQ | ⟨rfl, hd⟩) | ⟨s, hmem, hd⟩)
      · exact Or.inl hQ
      · exact Or.inr ⟨s0, Or.inl ⟨rfl, rfl⟩, hd⟩
      · exact Or.inr ⟨s, Or.inr hmem, hd⟩
    · rintro (hQ | ⟨s, ⟨rfl, rfl⟩ | hmem, hd⟩)
      · exact Or.inl (Or.inl hQ)
      · exact Or.inl (Or.inr ⟨rfl, hd⟩)
      · exact Or.inr ⟨s, hmem, hd⟩

/-! #### Key uniqueness of the built indexes -/

theorem keys_indexAdd (index : List (String × List Nat)) (t : String) (d : Nat)
    (x : String) :
    x ∈ (indexAdd index t d).map Prod.fst ↔ x ∈ index.map Prod.fst ∨ x = t := by
  induction index with
  | nil => simp [indexAdd]
  | cons hd rest ih =>
    obtain ⟨k, s⟩ := hd
    by_cases hk : k = t
    · subst hk
      simp [indexAdd]
      tauto
    · simp only [indexAdd, if_neg hk, List.map_cons, List.mem_cons, ih]
      tauto

theorem nodupKeys_indexAdd {index : List (String × List Nat)}
    (h : (index.map Prod.fst).Nodup) (t : String) (d : Nat) :
    ((indexAdd index t d).map Prod.fst).Nodup := by
  induction index with
  | nil => simp [indexAdd]
  | cons hd rest ih =>
    obtain ⟨k, s⟩ := hd
    simp only [List.map_cons, List.nodup_cons] at h
    obtain ⟨hk_not, hrest⟩ := h
    by_cases hk : k = t
    · subst hk
      simp only [indexAdd, if_true, List.map_cons, List.nodup_cons]
      exact ⟨hk_not, hrest⟩
    · simp only [indexAdd, if_neg hk, List.map_cons, List.nodup_cons]
      refine ⟨?_, ih hrest⟩
      rw [keys_indexAdd]
      rintro (hmem | rfl)
      · exact hk_not hmem
      · exact hk rfl

theorem nodupKeys_processDoc (tokens : List String) :
    ∀ (index : List (String × List Nat)) (doc_id : Nat),
    (index.map Prod.fst).Nodup →
    ((processDoc index doc_id tokens).map Prod.fst).Nodup := by
  induction tokens with
  | nil => intro index doc_id h; exact h
  | cons tok rest ih =>
    intro index doc_id h
    exact ih (indexAdd index tok doc_id) doc_id (nodupKeys_indexAdd h tok doc_id)

theorem nodupKeys_buildPairs (pairs : List (Nat × List String)) :
    ∀ (index : List (String × List Nat)),
    (index.map Prod.fst).Nodup →
    ((buildPairs index pairs).map Prod.fst).Nodup := by
  induction pairs with
  | nil => intro index h; exact h
  | cons pr rest ih =>
    intro index h
    exact ih (processDoc index pr.1 pr.2) (nodupKeys_processDoc pr.2 index pr.1 h)

theorem getVal_of_mem_nodupKeys {index : List (String × List Nat)}
    (hnk : (index.map Prod.fst).Nodup) {t : String} {s : List Nat}
    (hmem : (t, s) ∈ index) : getVal t index = some s := by
  induction index with
  | nil => simp at hmem
  | cons hd rest ih =>
    obtain ⟨k, v⟩ := hd
    simp only [List.map_cons, List.nodup_cons] at hnk
    rcases List.mem_cons.mp hmem with heq | hm2
    · rw [Prod.mk.injEq] at heq
      obtain ⟨h1, h2⟩ := heq
      subst h1
      subst h2
      simp [getVal]
    · have hk : ¬ k = t := by
        intro hc
        subst hc
        exact hnk.1 (List.mem_map_of_mem Prod.fst hm2)
      simp only [getVal, if_neg hk]
      exact ih hnk.2 hm2

theorem chunk_entries_ne_nil (pairs : List (Nat × List String)) :
    ∀ t s, (t, s) ∈ build_chunk_index pairs → s ≠ [] := by
  intro t s hmem
  have hnk : ((buildPairs [] pairs).map Prod.fst).Nodup :=
    nodupKeys_buildPairs pairs [] (by simp)
  have hg := getVal_of_mem_nodupKeys hnk hmem
  exact ((represents_build pairs t).2 s hg).2.1

theorem chunk_entry_iff (pairs : List (Nat × List String)) (t : String) (d : Nat) :
    (∃ s, (t, s) ∈ build_chunk_index pairs ∧ d ∈ s)
      ↔ ∃ doc, (d, doc) ∈ pairs ∧ t ∈ doc := by
  constructor
  · rintro ⟨s, hmem, hd⟩
    have hnk : ((buildPairs [] pairs).map Prod.fst).Nodup :=
      nodupKeys_buildPairs pairs [] (by simp)
    have hg := getVal_of_mem_nodupKeys hnk hmem
    exact (((represents_build pairs t).2 s hg).2.2 d).mp hd
  · intro hQ
    cases hg : getVal t (buildPairs [] pairs) with
    | none => exact absurd hQ ((represents_build pairs t).1 hg d)
    | some s =>
      exact ⟨s, getVal_mem hg, (((represents_build pairs t).2 s hg).2.2 d).mpr hQ⟩

theorem represents_fold_merge (chunks : List (List (Nat × List String))) :
    ∀ (base : List (String × List Nat)) (Qb : String → Nat → Prop),
    Represents base Qb →
    Represents ((chunks.map build_chunk_index).foldl merge_indexes base)
      (fun t d => Qb t d ∨ ∃ pr, pr ∈ chunks ∧ ∃ doc, (d, doc) ∈ pr ∧ t ∈ doc) := by
  induction chunks with
  | nil =>
    intro base Qb hb
    exact represents_congr hb (by simp)
  | cons ch rest ih =>
    intro base Qb hb
    simp only [List.map_cons, List.foldl_cons]
    have h1 := represents_merge (build_chunk_index ch) base Qb hb
      (chunk_entries_ne_nil ch)
    have h1i : Represents (merge_indexes base (build_chunk_index ch))
        (fun t d => Qb t d ∨ ∃ doc, (d, doc) ∈ ch ∧ t ∈ doc) :=
      represents_congr h1 (fun t d => or_congr_right (chunk_entry_iff ch t d))
    have h2 := ih (merge_indexes base (build_chunk_index ch)) _ h1i
    apply represents_congr h2
    intro t d
    simp only [List.mem_cons]
    constructor
    · rintro ((hQ | hch) | ⟨pr, hmem, hdoc⟩)
      · exact Or.inl hQ
      · exact Or.inr ⟨ch, Or.inl rfl, hch⟩
      · exact Or.inr ⟨pr, Or.inr hmem, hdoc⟩
    · rintro (hQ | ⟨pr, hpr | hmem, hdoc⟩)
      · exact Or.inl (Or.inl hQ)
      · exact Or.inl (Or.inr (hpr ▸ hdoc))
      · exact Or.inr ⟨pr, hmem, hdoc⟩

/-! #### The chunks concatenate back to the document pairs -/

theorem chunksOf_nil (size : Nat) : chunksOf size ([] : List α) = [] := by
  rw [chunksOf]

theorem chunksOf_cons (size : Nat) (x : α) (xs : List α) :
    chunksOf size (x :: xs)
      = (x :: xs.take (size - 1)) :: chunksOf size (xs.drop (size - 1)) := by
  rw [chunksOf]

theorem flatten_chunksOf (size : Nat) : ∀ (l : List α), (chunksOf size l).flatten = l
  | [] => by rw [chunksOf_nil]; rfl
  | x :: xs => by
    rw [chunksOf_cons]
    simp only [List.flatten_cons]
    rw [flatten_chunksOf size (xs.drop (size - 1))]
    rw [List.cons_append, List.take_append_drop]
termination_by l => l.length
decreasing_by
  simp only [List.length_drop, List.length_cons]
  omega

theorem parallel_chunks_flatten (docs : List (List String)) (w : Nat) :
    (parallel_chunks docs w).flatten = docs.enum :=
  flatten_chunksOf _ _

/-! #### Sorting the values preserves dictionary equality of represented indexes -/

theorem getVal_sortVals (index : List (String × List Nat)) (t : String) :
    getVal t (sortVals index)
      = (getVal t index).map (List.insertionSort (· ≤ ·)) := by
  induction index with
  | nil => rfl
  | cons hd rest ih =>
    obtain ⟨k, s⟩ := hd
    by_cases hk : k = t
    · subst hk
      simp [sortVals, getVal]
    · simp only [sortVals, List.map_cons, getVal, if_neg hk]
      exact ih

theorem dictEq_sortVals {i1 i2 : List (String × List Nat)} {Q : String → Nat → Prop}
    (h1 : Represents i1 Q) (h2 : Represents i2 Q) :
    DictEq (sortVals i1) (sortVals i2) := by
  intro t
  rw [getVal_sortVals i1 t, getVal_sortVals i2 t]
  cases hg1 : getVal t i1 with
  | none =>
    cases hg2 : getVal t i2 with
    | none => rfl
    | some s2 =>
      exfalso
      obtain ⟨_, hne2, hmem2⟩ := (h2 t).2 s2 hg2
      obtain ⟨x, hx⟩ := List.exists_mem_of_ne_nil s2 hne2
      exact (h1 t).1 hg1 x ((hmem2 x).mp hx)
  | some s1 =>
    cases hg2 : getVal t i2 with
    | none =>
      exfalso
      obtain ⟨_, hne1, hmem1⟩ := (h1 t).2 s1 hg1
      obtain ⟨x, hx⟩ := List.exists_mem_of_ne_nil s1 hne1
      exact (h2 t).1 hg2 x ((hmem1 x).mp hx)
    | some s2 =>
      obtain ⟨hnd1, _, hmem1⟩ := (h1 t).2 s1 hg1
      obtain ⟨hnd2, _, hmem2⟩ := (h2 t).2 s2 hg2
      have hperm : s1.Perm s2 := (List.perm_ext_iff_of_nodup hnd1 hnd2).mpr
        (fun x => (hmem1 x).trans (hmem2 x).symm)
      have hsorteq : List.insertionSort (· ≤ ·) s1 = List.insertionSort (· ≤ ·) s2 :=
        List.eq_of_perm_of_sorted
          (((List.perm_insertionSort _ s1).trans hperm).trans
            (List.perm_insertionSort _ s2).symm)
          (List.sorted_insertionSort _ s1) (List.sorted_insertionSort _ s2)
      simp [hsorteq]

/-- C2: the parallel builder returns the same value for any two requested
worker counts, and that value is dictionary-equal (Python `==`) to the
sequential builder's output on the same documents. -/
theorem C2_parallel_eq_sequential (docs : List (List String)) (w1 w2 : Nat)
    (hw1 : 1 ≤ w1) (hw2 : 1 ≤ w2) :
    build_inverted_index_parallel docs w1 = build_inverted_index_parallel docs w2
    ∧ DictEq (build_inverted_index_parallel docs w1) (build_inverted_index docs) := by
  constructor
  · rfl
  · show DictEq
      (sortVals (((parallel_chunks docs w1).map build_chunk_index).foldl merge_indexes []))
      (sortVals (buildPairs [] docs.enum))
    apply dictEq_sortVals (Q := fun t d => ∃ doc, (d, doc) ∈ docs.enum ∧ t ∈ doc)
    · have h := represents_fold_merge (parallel_chunks docs w1) [] _ represents_empty
      apply represents_congr h
      intro t d
      simp only [false_or]
      constructor
      · rintro ⟨pr, hpr, doc, hmem, htd⟩
        refine ⟨doc, ?_, htd⟩
        have hfl : (d, doc) ∈ (parallel_chunks docs w1).flatten :=
          List.mem_flatten.mpr ⟨pr, hpr, hmem⟩
        rw [parallel_chunks_flatten docs w1] at hfl
        exact hfl
      · rintro ⟨doc, hmem, htd⟩
        have hfl : (d, doc) ∈ (parallel_chunks docs w1).flatten := by
          rw [parallel_chunks_flatten docs w1]
          exact hmem
        obtain ⟨pr, hpr, hm⟩ := List.mem_flatten.mp hfl
        exact ⟨pr, hpr, doc, hm, htd⟩
    · exact represents_build docs.enum

theorem C2_witness :
    getVal "b" (build_inverted_index_parallel [["a"], ["a", "b"]] 1)
      = getVal "b" (build_inverted_index [["a"], ["a", "b"]]) :=
  (C2_parallel_eq_sequential [["a"], ["a", "b"]] 1 3 (by norm_num) (by norm_num)).2 "b"

/-! ### The sequential builder computes positions -/

theorem enum_pairs_iff {docs : List (List String)} {d : Nat} {t : String} :
    (∃ doc, (d, doc) ∈ docs.enum ∧ t ∈ doc)
      ↔ d < docs.length ∧ t ∈ docs.getD d [] := by
  constructor
  · rintro ⟨doc, hmem, htd⟩
    have h := List.mk_mem_enum_iff_getElem?.mp hmem
    obtain ⟨hlt, hget⟩ := List.getElem?_eq_some_iff.mp h
    refine ⟨hlt, ?_⟩
    have hgd : docs.getD d [] = doc := by
      simp [List.getD_eq_getElem?_getD, h]
    rw [hgd]
    exact htd
  · rintro ⟨hlt, htd⟩
    refine ⟨docs.getD d [], List.mk_mem_enum_iff_getElem?.mpr ?_, htd⟩
    have h1 : docs[d]? = some (docs.get ⟨d, hlt⟩) := by
      simpa using List.getElem?_eq_getElem hlt
    have h2 : docs.getD d [] = docs.get ⟨d, hlt⟩ := by
      simp [List.getD_eq_getElem?_getD, h1]
    rw [h2, h1]

/-- C6: the sequential builder maps a term `t` to a postings list exactly
when some document contains `t`, and that list is the strictly increasing
(sorted, duplicate-free) list of precisely the positions of the documents
containing `t`; on `D0 = ["a","b"]`, `D1 = ["b","c"]` the result is
`{"a": [0], "b": [0, 1], "c": [1]}`. -/
theorem C6_sequential_builder (docs : List (List String)) (t : String) :
    (∀ ps, getVal t (build_inverted_index docs) = some ps →
        List.Sorted (· < ·) ps
          ∧ ∀ d, d ∈ ps ↔ d < docs.length ∧ t ∈ docs.getD d [])
    ∧ (getVal t (build_inverted_index docs) = none →
        ∀ d, d < docs.length → t ∉ docs.getD d [])
    ∧ build_inverted_index [["a", "b"], ["b", "c"]]
        = [("a", [0]), ("b", [0, 1]), ("c", [1])] := by
  have hrep := represents_build docs.enum
  refine ⟨?_, ?_, ?_⟩
  · intro ps hps
    rw [show build_inverted_index docs
        = sortVals (buildPairs [] docs.enum) from rfl, getVal_sortVals] at hps
    cases hg : getVal t (buildPairs [] docs.enum) with
    | none =>
      rw [hg] at hps
      simp at hps
    | some s =>
      rw [hg] at hps
      have hps2 : List.insertionSort (· ≤ ·) s = ps := by simpa using hps
      subst hps2
      obtain ⟨hnd, _, hmem⟩ := (hrep t).2 s hg
      constructor
      · have hsorted := List.sorted_insertionSort (· ≤ ·) s
        have hndps : (List.insertionSort (· ≤ ·) s).Nodup :=
          (List.perm_insertionSort _ s).nodup_iff.mpr hnd
        exact (List.Pairwise.and hsorted hndps).imp
          (fun hab => lt_of_le_of_ne hab.1 hab.2)
      · intro d
        rw [(List.perm_insertionSort (· ≤ ·) s).mem_iff, hmem d, ← enum_pairs_iff]
  · intro hnone d hlt htd
    rw [show build_inverted_index docs
        = sortVals (buildPairs [] docs.enum) from rfl, getVal_sortVals] at hnone
    cases hg : getVal t (buildPairs [] docs.enum) with
    | some s =>
      rw [hg] at hnone
      simp at hnone
    | none =>
      exact (hrep t).1 hg d (enum_pairs_iff.mpr ⟨hlt, htd⟩)
  · decide

theorem C6_witness :
    List.Sorted (· < ·) [0, 1]
      ∧ ∀ d, d ∈ ([0, 1] : List Nat)
          ↔ d < ([["a", "b"], ["b", "c"]] : List (List String)).length
            ∧ "b" ∈ [["a", "b"], ["b", "c"]].getD d [] :=
  (C6_sequential_builder [["a", "b"], ["b", "c"]] "b").1 [0, 1] (by decide)

/-! ### The partitioning of the parallel builder -/

/-- C4 (evidence of the code bug): the chunking ignores the requested
worker count entirely — `n_workers = 4` overwrites the parameter — so with
8 documents and a requested worker count of 1, the pairs are still split
relative to 4 workers: 4 chunks of 2 documents each, instead of one chunk
holding the whole input for the single requested worker. -/
theorem C4_workers_ignored :
    (∀ (docs : List (List String)) (w1 w2 : Nat),
        parallel_chunks docs w1 = parallel_chunks docs w2)
    ∧ parallel_chunks [["a"], ["b"], ["c"], ["d"], ["e"], ["f"], ["g"], ["h"]] 1
        = [[(0, ["a"]), (1, ["b"])], [(2, ["c"]), (3, ["d"])],
           [(4, ["e"]), (5, ["f"])], [(6, ["g"]), (7, ["h"])]] := by
  constructor
  · intro docs w1 w2
    rfl
  · have hstart : parallel_chunks [["a"], ["b"], ["c"], ["d"], ["e"], ["f"], ["g"], ["h"]] 1
        = chunksOf 2 [(0, ["a"]), (1, ["b"]), (2, ["c"]), (3, ["d"]),
            (4, ["e"]), (5, ["f"]), (6, ["g"]), (7, ["h"])] := rfl
    rw [hstart]
    simp [chunksOf_cons, chunksOf_nil]

end IndexLab
